import Mathlib

/-!
Verification of the lfc (Little Fluffy Clouds) IP network aggregation tool.

The Rust source (src/rust/src/main.rs) reads CIDR blocks from standard input,
aggregates them via the ipnet crate (IpNet.aggregate) and prints the result.
The aggregation algorithm itself lives in the ipnet library, outside this
repository; the specification re-states it explicitly as an
interval-merge-then-decompose pipeline, which is modelled here.  The I/O shell
(parse_nets, main) is embedded directly from the source, with the per-line
CIDR parser of the library abstracted as a parameter.
-/

/-- Modelled from the spec: the address family of an IP network, IPv4 or IPv6
(in the source this distinction is the V4/V6 variant of the ipnet IpNet type). -/
inductive Family where
  | v4
  | v6
deriving DecidableEq

/-- Bit width of the address space of a family: 32 for IPv4, 128 for IPv6. -/
def Family.width : Family → Nat
  | .v4 => 32
  | .v6 => 128

/-- Modelled from the spec: an address block (family, base address, prefix
length).  Addresses are unsigned integers of the family's width; in the source
this data lives inside the ipnet IpNet value. -/
structure Block where
  family : Family
  address : Nat
  prefixLength : Nat
deriving DecidableEq

/-- Number of addresses covered by a block: 2 ^ (width - prefixLength). -/
def Block.size (b : Block) : Nat := 2 ^ (b.family.width - b.prefixLength)

/-- Highest address covered by a block. -/
def Block.last (b : Block) : Nat := b.address + b.size - 1

/-- Modelled from the spec Interval Mapper: the closed numeric interval
(start, last) covered by a block. -/
def Block.toIval (b : Block) : Nat × Nat := (b.address, b.address + b.size - 1)

/-- A block is canonical when its prefix length fits the family width and all
bits beyond the prefix are zero (address is a multiple of the block size). -/
def Canonical (b : Block) : Prop :=
  b.prefixLength ≤ b.family.width ∧ b.address % b.size = 0

instance (b : Block) : Decidable (Canonical b) :=
  inferInstanceAs (Decidable (_ ∧ _))

/-- Modelled from the spec: the error produced when a block would not be
canonical.  The source never constructs such a value itself; its library
parser is expected to reject the line instead. -/
inductive InvalidBlockError where
  | prefixTooLong
  | hostBitsSet
deriving DecidableEq

/-- Modelled from the spec Block Model: canonicalize fails if the prefix
length exceeds the family width or if any bit beyond the prefix length is set
in the (width-bit) address; it never masks the address. -/
def canonicalize (f : Family) (address prefixLength : Nat) : Except InvalidBlockError Block :=
  if f.width < prefixLength then Except.error InvalidBlockError.prefixTooLong
  else if address % 2 ^ (f.width - prefixLength) = 0 then
    Except.ok (Block.mk f address prefixLength)
  else Except.error InvalidBlockError.hostBitsSet

/-- Membership of a point in a closed interval (start, last). -/
def inIval (iv : Nat × Nat) (a : Nat) : Prop := iv.1 ≤ a ∧ a ≤ iv.2

instance (iv : Nat × Nat) (a : Nat) : Decidable (inIval iv a) :=
  inferInstanceAs (Decidable (_ ∧ _))

/-- A point is covered by some interval of the list. -/
def covList (l : List (Nat × Nat)) (a : Nat) : Prop := ∃ iv ∈ l, inIval iv a

instance (l : List (Nat × Nat)) (a : Nat) : Decidable (covList l a) :=
  inferInstanceAs (Decidable (∃ iv ∈ l, inIval iv a))

/-- A point is covered by some block of the given family in the list. -/
def blocksCover (f : Family) (l : List Block) (a : Nat) : Prop :=
  ∃ b ∈ l, b.family = f ∧ inIval b.toIval a

instance (f : Family) (l : List Block) (a : Nat) : Decidable (blocksCover f l a) :=
  inferInstanceAs (Decidable (∃ b ∈ l, b.family = f ∧ inIval b.toIval a))

/-- Modelled from the spec Interval Merger: the sort order on intervals, by
start ascending with ties broken by end descending. -/
def ivalLE (x y : Nat × Nat) : Prop := x.1 < y.1 ∨ (x.1 = y.1 ∧ y.2 ≤ x.2)

instance : DecidableRel ivalLE := fun x y =>
  inferInstanceAs (Decidable (x.1 < y.1 ∨ (x.1 = y.1 ∧ y.2 ≤ x.2)))

instance : IsTotal (Nat × Nat) ivalLE :=
  ⟨by intro x y; unfold ivalLE; omega⟩

instance : IsTrans (Nat × Nat) ivalLE :=
  ⟨by intro x y z; unfold ivalLE; omega⟩

/-- Modelled from the spec Interval Merger: sorting of the interval list. -/
def sortIvals (l : List (Nat × Nat)) : List (Nat × Nat) := List.insertionSort ivalLE l

/-- Modelled from the spec Interval Merger: the linear scan.  The current
range is extended by any interval starting at or before its end plus one,
otherwise the current range is emitted and the scan restarts at the interval. -/
def mergeScan (cur : Nat × Nat) : List (Nat × Nat) → List (Nat × Nat)
  | [] => [cur]
  | iv :: rest =>
    if iv.1 ≤ cur.2 + 1 then mergeScan (cur.1, max cur.2 iv.2) rest
    else cur :: mergeScan iv rest

/-- Modelled from the spec Interval Merger: empty input yields no ranges,
otherwise the scan starts from the first (sorted) interval. -/
def mergeIvals : List (Nat × Nat) → List (Nat × Nat)
  | [] => []
  | iv :: rest => mergeScan iv rest

/-- Modelled from the spec Interval Mapper: the exponent of the largest
power-of-two block size that divides the start address (any size divides
start 0), fits in maxLen addresses, and fits the family width. -/
def largestAlignedExp (width s maxLen : Nat) : Nat :=
  Nat.findGreatest (fun k => s % 2 ^ k = 0 ∧ 2 ^ k ≤ maxLen) width

/-- Modelled from the spec Range Decomposer: while the range is nonempty, emit
the largest aligned block at its start and continue after that block.  The
fuel argument bounds the iteration count; decomposeRange supplies enough fuel
(the range length) for the recursion to run to completion. -/
def decomposeRangeAux (f : Family) : Nat → Nat → Nat → List Block
  | 0, _, _ => []
  | fuel + 1, s, e =>
    if s ≤ e then
      Block.mk f s (f.width - largestAlignedExp f.width s (e - s + 1)) ::
        decomposeRangeAux f fuel (s + 2 ^ largestAlignedExp f.width s (e - s + 1)) e
    else []

/-- Modelled from the spec Range Decomposer: the minimal CIDR decomposition of
the closed range (s, e). -/
def decomposeRange (f : Family) (s e : Nat) : List Block :=
  decomposeRangeAux f (e + 1 - s) s e

/-- Intervals of the blocks of one family, in input order. -/
def familyIvals (f : Family) (l : List Block) : List (Nat × Nat) :=
  (l.filter (fun b => b.family == f)).map Block.toIval

/-- Modelled from the spec Aggregation Engine, one family: map the family's
blocks to intervals, sort, merge, and decompose every merged range. -/
def aggregateFamily (f : Family) (l : List Block) : List Block :=
  (mergeIvals (sortIvals (familyIvals f l))).flatMap (fun m => decomposeRange f m.1 m.2)

/-- Modelled from the spec Aggregation Engine: per-family aggregation with all
IPv4 results before all IPv6 results. -/
def aggregate (l : List Block) : List Block :=
  aggregateFamily Family.v4 l ++ aggregateFamily Family.v6 l

/-- The source's gather function: it delegates aggregation to the library
(IpNet.aggregate), modelled here by aggregate. -/
def gather (nets : List Block) : List Block := aggregate nets

/-- The separation asserted by the disjointness claim for two same-family
blocks: a gap of at least one address between their intervals. -/
def gapRel (b c : Block) : Prop :=
  b.family = c.family → (b.last + 1 < c.address ∨ c.last + 1 < b.address)

instance (b c : Block) : Decidable (gapRel b c) :=
  inferInstanceAs (Decidable (b.family = c.family → (b.last + 1 < c.address ∨ c.last + 1 < b.address)))

/-- b and c are adjacent bit-aligned sibling blocks of equal prefix length:
exactly the pairs whose union is the single block one prefix bit shorter. -/
def mergeablePair (b c : Block) : Prop :=
  b.family = c.family ∧ b.prefixLength = c.prefixLength ∧ 1 ≤ b.prefixLength ∧
    b.prefixLength ≤ b.family.width ∧ c.address = b.address + b.size ∧
    b.address % (2 * b.size) = 0

instance (b c : Block) : Decidable (mergeablePair b c) :=
  inferInstanceAs (Decidable (_ ∧ _ ∧ _ ∧ _ ∧ _ ∧ _))

/-- Two same-family output blocks never overlap and are never a mergeable
sibling pair (in either order); they may touch when their union is not a
single canonical block. -/
def amendedRel (b c : Block) : Prop :=
  b.family = c.family →
    ((b.last < c.address ∨ c.last < b.address) ∧ ¬ mergeablePair b c ∧ ¬ mergeablePair c b)

instance (b c : Block) : Decidable (amendedRel b c) := by
  unfold amendedRel
  infer_instance

/-- Output order of the aggregation: IPv4 before IPv6, strictly ascending base
address within a family. -/
def orderRel (b c : Block) : Prop :=
  (b.family = Family.v4 ∧ c.family = Family.v6) ∨ (b.family = c.family ∧ b.address < c.address)

/-- Every interval of the list is well formed (start at most last). -/
def wfIvals (l : List (Nat × Nat)) : Prop := ∀ iv ∈ l, iv.1 ≤ iv.2

/-- Consecutive intervals of the list are separated by a gap of at least one
address: the invariant of the merged-range list. -/
def gapChain (l : List (Nat × Nat)) : Prop := List.Chain' (fun x y => x.2 + 1 < y.1) l

/-- The block c lies strictly after b, and when the two intervals touch
exactly, the pair is not mergeable.  This transitive relation is the
consecutive-blocks invariant of the decomposer output. -/
def sepAfter (b c : Block) : Prop :=
  b.last + 1 ≤ c.address ∧ (b.last + 1 = c.address → ¬ mergeablePair b c)

instance : IsTrans Block sepAfter :=
  ⟨fun a b c hab hbc => by
    have h1 : 1 ≤ b.size := Nat.one_le_two_pow
    have h2 : b.address ≤ b.last := by unfold Block.last; omega
    have hab1 := hab.1
    have hbc1 := hbc.1
    exact ⟨by omega, fun he => absurd he (by omega)⟩⟩

/-- Split a character list at newline characters; there is always one more
part than there are newlines.  With rustLines this models Rust str lines. -/
def splitOnNewline : List Char → List (List Char)
  | [] => [[]]
  | c :: cs =>
    if c = '\n' then [] :: splitOnNewline cs
    else
      match splitOnNewline cs with
      | [] => [[c]]
      | p :: ps => (c :: p) :: ps

/-- Drop one trailing carriage return, as Rust str lines does per line. -/
def stripCR (l : List Char) : List Char :=
  if l.getLast? = some '\r' then l.dropLast else l

/-- Rust str lines semantics: split on newline, drop the empty part after a
trailing newline (so empty input has no lines), strip one trailing carriage
return from each line. -/
def rustLines (s : String) : List (List Char) :=
  let parts := splitOnNewline s.data
  (if parts.getLast? = some [] then parts.dropLast else parts).map stripCR

/-- Rust str trim on a line: remove leading and trailing whitespace. -/
def trimChars (l : List Char) : List Char :=
  ((l.dropWhile Char.isWhitespace).reverse.dropWhile Char.isWhitespace).reverse

/-- The panic message of parse_nets for an unparsable line. -/
def parseErrMsg (l : List Char) : String :=
  "Unable to parse \x22" ++ String.mk l ++ "\x22 as an IP network."

/-- Parse the trimmed nonempty lines in order, stopping at the first line the
line parser rejects (the source panics there). -/
def parseLinesGo (parse : List Char → Option Block) : List (List Char) → Except String (List Block)
  | [] => Except.ok []
  | l :: ls =>
    match parse l with
    | some b => Except.map (fun bs => b :: bs) (parseLinesGo parse ls)
    | none => Except.error (parseErrMsg l)

/-- The source's parse_nets: trim every line, skip empty lines, parse the
rest; the library CIDR parser is abstracted as the parse parameter. -/
def parseNets (parse : List Char → Option Block) (lines : List (List Char)) :
    Except String (List Block) :=
  parseLinesGo parse ((lines.map trimChars).filter (fun l => !l.isEmpty))

/-- One line of standard output: the help text or a rendered network (textual
rendering of a block is the library Display and is kept abstract). -/
inductive OutLine where
  | help
  | net (b : Block)
deriving DecidableEq

/-- Observable outcome of one run: exit code, standard output lines, standard
error lines. -/
structure RunResult where
  exitCode : Nat
  stdout : List OutLine
  stderr : List String
deriving DecidableEq

/-- The error lines main prints for an unrecognized argument. -/
def usageErr (arg : String) : List String :=
  ["error: unrecognized argument \x27" ++ arg ++ "\x27", "",
    "Usage: lfc [OPTIONS]", "", "For more information, try \x27--help\x27."]

/-- The source's main: with more than one element in argv, inspect argv[1]
only (help or error, standard input untouched); otherwise read standard
input, parse all lines, and print the aggregated networks.  A parse failure
is the Rust panic: exit code 101, no standard output, the message on
standard error. -/
def runMain (parse : List Char → Option Block) (args : List String) (stdin : String) : RunResult :=
  if args.length > 1 then
    let arg := args[1]!
    if arg = "-h" ∨ arg = "--help" then RunResult.mk 0 [OutLine.help] []
    else RunResult.mk 1 [] (usageErr arg)
  else
    match parseNets parse (rustLines stdin) with
    | Except.ok nets => RunResult.mk 0 ((gather nets).map OutLine.net) []
    | Except.error msg => RunResult.mk 101 [] [msg]

/-- Every block covers at least one address. -/
theorem Block.size_pos (b : Block) : 1 ≤ b.size := Nat.one_le_two_pow

/-- The base address of a block is its lowest covered address. -/
theorem Block.address_le_last (b : Block) : b.address ≤ b.last := by
  have := b.size_pos
  unfold Block.last
  omega

theorem covList_cons (iv : Nat × Nat) (l : List (Nat × Nat)) (a : Nat) :
    covList (iv :: l) a ↔ inIval iv a ∨ covList l a := by
  simp [covList]

theorem covList_append (l1 l2 : List (Nat × Nat)) (a : Nat) :
    covList (l1 ++ l2) a ↔ covList l1 a ∨ covList l2 a := by
  simp [covList, List.mem_append, or_and_right, exists_or]

theorem covList_perm {l1 l2 : List (Nat × Nat)} (h : l1.Perm l2) (a : Nat) :
    covList l1 a ↔ covList l2 a := by
  constructor
  · rintro ⟨iv, hm, hi⟩
    exact ⟨iv, h.mem_iff.mp hm, hi⟩
  · rintro ⟨iv, hm, hi⟩
    exact ⟨iv, h.mem_iff.mpr hm, hi⟩

/-- Coverage of the merge scan: the scan neither adds nor loses addresses
relative to the current range and the remaining (start-sorted) intervals. -/
theorem mergeScan_cov (l : List (Nat × Nat)) : ∀ cur : Nat × Nat,
    List.Pairwise (fun x y => x.1 ≤ y.1) l → (∀ iv ∈ l, cur.1 ≤ iv.1) → ∀ a,
    (covList (mergeScan cur l) a ↔ inIval cur a ∨ covList l a) := by
  induction l with
  | nil =>
    intro cur _ _ a
    simp [mergeScan, covList, inIval]
  | cons iv rest ih =>
    intro cur hs hlo a
    have hrest : List.Pairwise (fun x y => x.1 ≤ y.1) rest := (List.pairwise_cons.mp hs).2
    have hivlo : ∀ jv ∈ rest, iv.1 ≤ jv.1 := (List.pairwise_cons.mp hs).1
    have hcur_iv : cur.1 ≤ iv.1 := hlo iv (List.mem_cons_self iv rest)
    simp only [mergeScan]
    by_cases hc : iv.1 ≤ cur.2 + 1
    · rw [if_pos hc]
      have hlo2 : ∀ jv ∈ rest, (cur.1, max cur.2 iv.2).1 ≤ jv.1 := by
        intro jv hjv
        exact le_trans hcur_iv (hivlo jv hjv)
      rw [ih (cur.1, max cur.2 iv.2) hrest hlo2 a, covList_cons]
      by_cases hP : covList rest a
      · simp [hP]
      · simp only [hP, or_false]
        unfold inIval
        simp only []
        omega
    · rw [if_neg hc, covList_cons, ih iv hrest hivlo a, covList_cons]

/-- The merge scan always emits the current start as the first range start,
and only ever grows the current end. -/
theorem mergeScan_head (l : List (Nat × Nat)) : ∀ cur : Nat × Nat,
    ∃ e2 t, mergeScan cur l = (cur.1, e2) :: t ∧ cur.2 ≤ e2 := by
  induction l with
  | nil =>
    intro cur
    exact ⟨cur.2, [], by simp [mergeScan], le_refl _⟩
  | cons iv rest ih =>
    intro cur
    simp only [mergeScan]
    by_cases hc : iv.1 ≤ cur.2 + 1
    · rw [if_pos hc]
      obtain ⟨e2, t, heq, hle⟩ := ih (cur.1, max cur.2 iv.2)
      exact ⟨e2, t, heq, le_trans (Nat.le_max_left _ _) hle⟩
    · rw [if_neg hc]
      exact ⟨cur.2, mergeScan iv rest, by simp, le_refl _⟩

/-- The merge scan emits well-formed ranges separated by gaps. -/
theorem mergeScan_gapSorted (l : List (Nat × Nat)) : ∀ cur : Nat × Nat,
    List.Pairwise (fun x y => x.1 ≤ y.1) l → (∀ iv ∈ l, cur.1 ≤ iv.1) →
    wfIvals l → cur.1 ≤ cur.2 →
    wfIvals (mergeScan cur l) ∧ gapChain (mergeScan cur l) := by
  induction l with
  | nil =>
    intro cur _ _ _ hcwf
    constructor
    · intro iv hiv
      simp [mergeScan] at hiv
      rw [hiv]
      exact hcwf
    · simp [mergeScan, gapChain]
  | cons iv rest ih =>
    intro cur hs hlo hwf hcwf
    have hrest : List.Pairwise (fun x y => x.1 ≤ y.1) rest := (List.pairwise_cons.mp hs).2
    have hivlo : ∀ jv ∈ rest, iv.1 ≤ jv.1 := (List.pairwise_cons.mp hs).1
    have hcur_iv : cur.1 ≤ iv.1 := hlo iv (List.mem_cons_self iv rest)
    have hwrest : wfIvals rest := fun jv hjv => hwf jv (List.mem_cons_of_mem iv hjv)
    have hivwf : iv.1 ≤ iv.2 := hwf iv (List.mem_cons_self iv rest)
    simp only [mergeScan]
    by_cases hc : iv.1 ≤ cur.2 + 1
    · rw [if_pos hc]
      refine ih (cur.1, max cur.2 iv.2) hrest ?_ hwrest ?_
      · intro jv hjv
        exact le_trans hcur_iv (hivlo jv hjv)
      · simp only []
        omega
    · rw [if_neg hc]
      obtain ⟨hwtail, hgtail⟩ := ih iv hrest hivlo hwrest hivwf
      obtain ⟨e2, t, heq, hle⟩ := mergeScan_head rest iv
      constructor
      · intro jv hjv
        rcases List.mem_cons.mp hjv with rfl | hjv'
        · exact hcwf
        · exact hwtail jv hjv'
      · unfold gapChain
        rw [heq] at hgtail ⊢
        rw [List.chain'_cons]
        exact ⟨by simp only []; omega, hgtail⟩

/-- Coverage of the full merge on a start-sorted interval list. -/
theorem mergeIvals_cov (l : List (Nat × Nat))
    (hs : List.Pairwise (fun x y => x.1 ≤ y.1) l) (a : Nat) :
    covList (mergeIvals l) a ↔ covList l a := by
  cases l with
  | nil => simp [mergeIvals]
  | cons iv rest =>
    simp only [mergeIvals]
    rw [mergeScan_cov rest iv (List.pairwise_cons.mp hs).2 (List.pairwise_cons.mp hs).1 a,
      covList_cons]

/-- The full merge of a start-sorted well-formed interval list is a
well-formed gap-separated range list. -/
theorem mergeIvals_gapSorted (l : List (Nat × Nat))
    (hs : List.Pairwise (fun x y => x.1 ≤ y.1) l) (hwf : wfIvals l) :
    wfIvals (mergeIvals l) ∧ gapChain (mergeIvals l) := by
  cases l with
  | nil =>
    constructor
    · intro iv hiv
      simp [mergeIvals] at hiv
    · simp [mergeIvals, gapChain]
  | cons iv rest =>
    simp only [mergeIvals]
    exact mergeScan_gapSorted rest iv (List.pairwise_cons.mp hs).2 (List.pairwise_cons.mp hs).1
      (fun jv hjv => hwf jv (List.mem_cons_of_mem iv hjv))
      (hwf iv (List.mem_cons_self iv rest))

/-- In a well-formed gap-separated list, every tail interval starts strictly
after the head's end plus one. -/
theorem gapChain_tail_gt (iv : Nat × Nat) (t : List (Nat × Nat)) :
    wfIvals (iv :: t) → gapChain (iv :: t) → ∀ jv ∈ t, iv.2 + 1 < jv.1 := by
  induction t generalizing iv with
  | nil => simp
  | cons jv t ih =>
    intro hw hg kv hkv
    have h1 : iv.2 + 1 < jv.1 := (List.chain'_cons.mp hg).1
    rcases List.mem_cons.mp hkv with rfl | hkv'
    · exact h1
    · have hjw : jv.1 ≤ jv.2 := hw jv (List.mem_cons_of_mem iv (List.mem_cons_self jv t))
      have h2 := ih jv (fun kv2 hkv2 => hw kv2 (List.mem_cons_of_mem iv hkv2))
        (List.chain'_cons.mp hg).2 kv hkv'
      omega

/-- Any covered point of a well-formed gap-separated list lies at or after the
head's start. -/
theorem covList_ge_head (iv : Nat × Nat) (t : List (Nat × Nat)) (a : Nat)
    (hw : wfIvals (iv :: t)) (hg : gapChain (iv :: t))
    (h : covList (iv :: t) a) : iv.1 ≤ a := by
  rcases h with ⟨kv, hkv, hik⟩
  rcases List.mem_cons.mp hkv with rfl | hkv'
  · exact hik.1
  · have h1 := gapChain_tail_gt iv t hw hg kv hkv'
    have h2 : iv.1 ≤ iv.2 := hw iv (List.mem_cons_self iv t)
    have h3 := hik.1
    omega

/-- A union of addresses has at most one representation as a well-formed,
gap-separated range list: two such lists with the same coverage are equal. -/
theorem gapSorted_unique (l1 : List (Nat × Nat)) : ∀ l2 : List (Nat × Nat),
    wfIvals l1 → gapChain l1 → wfIvals l2 → gapChain l2 →
    (∀ a, covList l1 a ↔ covList l2 a) → l1 = l2 := by
  induction l1 with
  | nil =>
    intro l2 _ _ hw2 _ hcov
    cases l2 with
    | nil => rfl
    | cons jv u =>
      exfalso
      have hj : covList (jv :: u) jv.1 :=
        ⟨jv, List.mem_cons_self jv u, le_refl _, hw2 jv (List.mem_cons_self jv u)⟩
      rcases (hcov jv.1).mpr hj with ⟨kv, hkv, _⟩
      simp at hkv
  | cons iv t ih =>
    intro l2 hw1 hg1 hw2 hg2 hcov
    cases l2 with
    | nil =>
      exfalso
      have hi : covList (iv :: t) iv.1 :=
        ⟨iv, List.mem_cons_self iv t, le_refl _, hw1 iv (List.mem_cons_self iv t)⟩
      rcases (hcov iv.1).mp hi with ⟨kv, hkv, _⟩
      simp at hkv
    | cons jv u =>
      have hivwf : iv.1 ≤ iv.2 := hw1 iv (List.mem_cons_self iv t)
      have hjvwf : jv.1 ≤ jv.2 := hw2 jv (List.mem_cons_self jv u)
      have hi : covList (iv :: t) iv.1 := ⟨iv, List.mem_cons_self iv t, le_refl _, hivwf⟩
      have hj : covList (jv :: u) jv.1 := ⟨jv, List.mem_cons_self jv u, le_refl _, hjvwf⟩
      have h1 : jv.1 ≤ iv.1 := covList_ge_head jv u iv.1 hw2 hg2 ((hcov iv.1).mp hi)
      have h2 : iv.1 ≤ jv.1 := covList_ge_head iv t jv.1 hw1 hg1 ((hcov jv.1).mpr hj)
      have hstart : iv.1 = jv.1 := le_antisymm h2 h1
      have hend : iv.2 = jv.2 := by
        by_contra hne
        rcases Nat.lt_or_ge iv.2 jv.2 with hlt | hge
        · have hpt : covList (jv :: u) (iv.2 + 1) :=
            ⟨jv, List.mem_cons_self jv u, by omega, by omega⟩
          rcases (hcov (iv.2 + 1)).mpr hpt with ⟨kv, hkv, hik⟩
          rcases List.mem_cons.mp hkv with rfl | hkv'
          · have := hik.2
            omega
          · have := gapChain_tail_gt iv t hw1 hg1 kv hkv'
            have := hik.1
            omega
        · have hlt2 : jv.2 < iv.2 := by omega
          have hpt : covList (iv :: t) (jv.2 + 1) :=
            ⟨iv, List.mem_cons_self iv t, by omega, by omega⟩
          rcases (hcov (jv.2 + 1)).mp hpt with ⟨kv, hkv, hik⟩
          rcases List.mem_cons.mp hkv with rfl | hkv'
          · have := hik.2
            omega
          · have := gapChain_tail_gt jv u hw2 hg2 kv hkv'
            have := hik.1
            omega
      have htcov : ∀ a, covList t a ↔ covList u a := by
        intro a
        constructor
        · rintro ⟨kv, hkv, hik⟩
          have hgt : iv.2 + 1 < kv.1 := gapChain_tail_gt iv t hw1 hg1 kv hkv
          have hfull : covList (iv :: t) a := ⟨kv, List.mem_cons_of_mem iv hkv, hik⟩
          rcases (hcov a).mp hfull with ⟨mv, hmv, him⟩
          rcases List.mem_cons.mp hmv with rfl | hmv'
          · have := him.2
            have := hik.1
            omega
          · exact ⟨mv, hmv', him⟩
        · rintro ⟨kv, hkv, hik⟩
          have hgt : jv.2 + 1 < kv.1 := gapChain_tail_gt jv u hw2 hg2 kv hkv
          have hfull : covList (jv :: u) a := ⟨kv, List.mem_cons_of_mem jv hkv, hik⟩
          rcases (hcov a).mpr hfull with ⟨mv, hmv, him⟩
          rcases List.mem_cons.mp hmv with rfl | hmv'
          · have := him.2
            have := hik.1
            omega
          · exact ⟨mv, hmv', him⟩
      have hhead : iv = jv := Prod.ext hstart hend
      have htail : t = u :=
        ih u (fun kv hkv => hw1 kv (List.mem_cons_of_mem iv hkv)) hg1.tail
          (fun kv hkv => hw2 kv (List.mem_cons_of_mem jv hkv)) hg2.tail htcov
      rw [hhead, htail]

/-- A well-formed gap-separated list is pairwise gap-separated. -/
theorem gapSorted_pairwise (l : List (Nat × Nat)) (hw : wfIvals l) (hg : gapChain l) :
    List.Pairwise (fun x y => x.2 + 1 < y.1) l := by
  induction l with
  | nil => simp
  | cons iv t ih =>
    rw [List.pairwise_cons]
    exact ⟨gapChain_tail_gt iv t hw hg,
      ih (fun kv hkv => hw kv (List.mem_cons_of_mem iv hkv)) hg.tail⟩

/-- A well-formed gap-separated list has no duplicate ranges. -/
theorem gapSorted_nodup (l : List (Nat × Nat)) (hw : wfIvals l) (hg : gapChain l) :
    l.Nodup := by
  induction l with
  | nil => simp
  | cons iv t ih =>
    rw [List.nodup_cons]
    refine ⟨fun hmem => ?_, ih (fun kv hkv => hw kv (List.mem_cons_of_mem iv hkv)) hg.tail⟩
    have h1 := gapChain_tail_gt iv t hw hg iv hmem
    have h2 : iv.1 ≤ iv.2 := hw iv (List.mem_cons_self iv t)
    omega

/-- Sorting preserves coverage. -/
theorem covList_sortIvals (l : List (Nat × Nat)) (a : Nat) :
    covList (sortIvals l) a ↔ covList l a :=
  covList_perm (List.perm_insertionSort ivalLE l) a

/-- The sorted interval list is ordered by start. -/
theorem sortIvals_startPairwise (l : List (Nat × Nat)) :
    List.Pairwise (fun x y => x.1 ≤ y.1) (sortIvals l) :=
  (List.sorted_insertionSort ivalLE l).imp (fun h => by unfold ivalLE at h; omega)

/-- Sorting preserves well-formedness of the intervals. -/
theorem sortIvals_wf (l : List (Nat × Nat)) (hw : wfIvals l) : wfIvals (sortIvals l) :=
  fun iv hiv => hw iv ((List.perm_insertionSort ivalLE l).mem_iff.mp hiv)

/-- Block intervals are well formed. -/
theorem wf_map_toIval (L : List Block) : wfIvals (L.map Block.toIval) := by
  intro iv hiv
  rcases List.mem_map.mp hiv with ⟨b, _, rfl⟩
  have := b.size_pos
  unfold Block.toIval
  simp only []
  omega

/-- The family intervals of a block list are well formed. -/
theorem familyIvals_wf (f : Family) (l : List Block) : wfIvals (familyIvals f l) :=
  wf_map_toIval _

/-- Coverage by the family intervals is coverage by the family's blocks. -/
theorem covList_familyIvals (f : Family) (l : List Block) (a : Nat) :
    covList (familyIvals f l) a ↔ blocksCover f l a := by
  unfold familyIvals blocksCover covList
  constructor
  · rintro ⟨iv, hiv, hin⟩
    rcases List.mem_map.mp hiv with ⟨b, hb, rfl⟩
    have hmem := List.mem_filter.mp hb
    exact ⟨b, hmem.1, by simpa using hmem.2, hin⟩
  · rintro ⟨b, hb, hf, hin⟩
    exact ⟨b.toIval, List.mem_map_of_mem _ (List.mem_filter.mpr ⟨hb, by simpa using hf⟩), hin⟩

theorem largestAlignedExp_le (width s maxLen : Nat) : largestAlignedExp width s maxLen ≤ width :=
  Nat.findGreatest_le width

/-- The chosen exponent yields an aligned block that fits the remaining
length, provided at least one address remains. -/
theorem largestAlignedExp_spec (width s maxLen : Nat) (h : 1 ≤ maxLen) :
    s % 2 ^ largestAlignedExp width s maxLen = 0 ∧
      2 ^ largestAlignedExp width s maxLen ≤ maxLen := by
  have h0 : s % 2 ^ 0 = 0 ∧ 2 ^ 0 ≤ maxLen := ⟨Nat.mod_one s, by simpa using h⟩
  exact @Nat.findGreatest_spec 0 (fun k => s % 2 ^ k = 0 ∧ 2 ^ k ≤ maxLen) _ width
    (Nat.zero_le width) h0

/-- The chosen exponent is the greatest aligned fitting exponent. -/
theorem largestAlignedExp_max (width s maxLen k : Nat) (hk : k ≤ width)
    (hd : s % 2 ^ k = 0) (hs : 2 ^ k ≤ maxLen) : k ≤ largestAlignedExp width s maxLen :=
  Nat.le_findGreatest hk ⟨hd, hs⟩

/-- An empty range decomposes to no blocks, whatever the fuel. -/
theorem decomposeRangeAux_nil (f : Family) (fuel s e : Nat) (hse : e < s) :
    decomposeRangeAux f fuel s e = [] := by
  cases fuel with
  | zero => rfl
  | succ fuel =>
    simp only [decomposeRangeAux]
    rw [if_neg (by omega)]

/-- With fuel at least the range length, a nonempty range decomposes with the
largest aligned block at its start first. -/
theorem decomposeRangeAux_head (f : Family) (fuel s e : Nat)
    (hfuel : e + 1 - s ≤ fuel) (hse : s ≤ e) :
    ∃ t, decomposeRangeAux f fuel s e =
      Block.mk f s (f.width - largestAlignedExp f.width s (e - s + 1)) :: t := by
  cases fuel with
  | zero => omega
  | succ fuel =>
    refine ⟨decomposeRangeAux f fuel (s + 2 ^ largestAlignedExp f.width s (e - s + 1)) e, ?_⟩
    simp only [decomposeRangeAux]
    rw [if_pos hse]

/-- Coverage of the decomposition: the blocks cover exactly the range. -/
theorem decomposeRangeAux_cov (f : Family) (fuel : Nat) : ∀ s e a, e + 1 - s ≤ fuel →
    (covList ((decomposeRangeAux f fuel s e).map Block.toIval) a ↔ (s ≤ a ∧ a ≤ e)) := by
  induction fuel with
  | zero =>
    intro s e a hfuel
    simp only [decomposeRangeAux, List.map_nil]
    simp [covList]
    omega
  | succ fuel ih =>
    intro s e a hfuel
    simp only [decomposeRangeAux]
    by_cases hse : s ≤ e
    · rw [if_pos hse]
      have hkle : largestAlignedExp f.width s (e - s + 1) ≤ f.width :=
        largestAlignedExp_le f.width s (e - s + 1)
      have hspec := largestAlignedExp_spec f.width s (e - s + 1) (by omega)
      have hp1 : (1 : Nat) ≤ 2 ^ largestAlignedExp f.width s (e - s + 1) :=
        Nat.one_le_two_pow
      set k := largestAlignedExp f.width s (e - s + 1) with hkdef
      have hsz := hspec.2
      rw [List.map_cons, covList_cons, ih (s + 2 ^ k) e a (by omega)]
      have htoIval : (Block.mk f s (f.width - k)).toIval = (s, s + 2 ^ k - 1) := by
        unfold Block.toIval Block.size
        simp [Nat.sub_sub_self hkle]
      rw [htoIval]
      unfold inIval
      simp only []
      omega
    · rw [if_neg hse]
      simp [covList]
      omega

/-- Every block of the decomposition has the requested family, lies inside
the range, fits the family width, and is canonically aligned. -/
theorem decomposeRangeAux_mem (f : Family) (fuel : Nat) : ∀ s e b, e + 1 - s ≤ fuel →
    b ∈ decomposeRangeAux f fuel s e →
    b.family = f ∧ s ≤ b.address ∧ b.address + b.size - 1 ≤ e ∧
      b.prefixLength ≤ f.width ∧ b.address % b.size = 0 := by
  induction fuel with
  | zero =>
    intro s e b _ hb
    simp [decomposeRangeAux] at hb
  | succ fuel ih =>
    intro s e b hfuel hb
    simp only [decomposeRangeAux] at hb
    by_cases hse : s ≤ e
    · rw [if_pos hse] at hb
      have hkle : largestAlignedExp f.width s (e - s + 1) ≤ f.width :=
        largestAlignedExp_le f.width s (e - s + 1)
      have hspec := largestAlignedExp_spec f.width s (e - s + 1) (by omega)
      have hp1 : (1 : Nat) ≤ 2 ^ largestAlignedExp f.width s (e - s + 1) :=
        Nat.one_le_two_pow
      set k := largestAlignedExp f.width s (e - s + 1) with hkdef
      have hsz := hspec.2
      rcases List.mem_cons.mp hb with rfl | hb'
      · have hsize : (Block.mk f s (f.width - k)).size = 2 ^ k := by
          unfold Block.size
          simp [Nat.sub_sub_self hkle]
        refine ⟨rfl, le_refl _, ?_, Nat.sub_le _ _, ?_⟩
        · rw [hsize]
          show s + 2 ^ k - 1 ≤ e
          omega
        · rw [hsize]
          show s % 2 ^ k = 0
          exact hspec.1
      · have hrec := ih (s + 2 ^ k) e b (by omega) hb'
        exact ⟨hrec.1, by omega, hrec.2.2.1, hrec.2.2.2.1, hrec.2.2.2.2⟩
    · rw [if_neg hse] at hb
      simp at hb

/-- Consecutive blocks of the decomposition are exactly contiguous, and never
form a mergeable sibling pair: the greedy choice is maximal. -/
theorem decomposeRangeAux_chain (f : Family) (fuel : Nat) : ∀ s e, e + 1 - s ≤ fuel →
    List.Chain' (fun b c => c.address = b.address + b.size ∧ ¬ mergeablePair b c)
      (decomposeRangeAux f fuel s e) := by
  induction fuel with
  | zero =>
    intro s e _
    simp [decomposeRangeAux]
  | succ fuel ih =>
    intro s e hfuel
    simp only [decomposeRangeAux]
    by_cases hse : s ≤ e
    · rw [if_pos hse]
      have hkle : largestAlignedExp f.width s (e - s + 1) ≤ f.width :=
        largestAlignedExp_le f.width s (e - s + 1)
      have hspec := largestAlignedExp_spec f.width s (e - s + 1) (by omega)
      have hp1 : (1 : Nat) ≤ 2 ^ largestAlignedExp f.width s (e - s + 1) :=
        Nat.one_le_two_pow
      set k := largestAlignedExp f.width s (e - s + 1) with hkdef
      have hsz := hspec.2
      have htail := ih (s + 2 ^ k) e (by omega)
      have hsize : (Block.mk f s (f.width - k)).size = 2 ^ k := by
        unfold Block.size
        simp [Nat.sub_sub_self hkle]
      by_cases hse2 : s + 2 ^ k ≤ e
      · obtain ⟨t, htl⟩ := decomposeRangeAux_head f fuel (s + 2 ^ k) e (by omega) hse2
        have hk2le : largestAlignedExp f.width (s + 2 ^ k) (e - (s + 2 ^ k) + 1) ≤ f.width :=
          largestAlignedExp_le f.width (s + 2 ^ k) _
        set k2 := largestAlignedExp f.width (s + 2 ^ k) (e - (s + 2 ^ k) + 1) with hk2def
        rw [htl] at htail ⊢
        rw [List.chain'_cons]
        refine ⟨⟨by rw [hsize], ?_⟩, htail⟩
        intro hm
        have hc_mem : Block.mk f (s + 2 ^ k) (f.width - k2) ∈
            decomposeRangeAux f fuel (s + 2 ^ k) e := by
          rw [htl]
          exact List.mem_cons_self _ _
        have hcfit := decomposeRangeAux_mem f fuel (s + 2 ^ k) e _ (by omega) hc_mem
        have hcsize : (Block.mk f (s + 2 ^ k) (f.width - k2)).size = 2 ^ k2 := by
          unfold Block.size
          simp [Nat.sub_sub_self hk2le]
        -- unpack the mergeability assumption
        have hplen : f.width - k = f.width - k2 := hm.2.1
        have hpos : 1 ≤ f.width - k := hm.2.2.1
        have halign : s % (2 * (Block.mk f s (f.width - k)).size) = 0 := hm.2.2.2.2.2
        rw [hsize] at halign
        have hkeq : k = k2 := by omega
        -- the second block fits inside the range
        have hfit2 : s + 2 ^ k + 2 ^ k - 1 ≤ e := by
          have hin := hcfit.2.2.1
          rw [hcsize] at hin
          show s + 2 ^ k + 2 ^ k - 1 ≤ e
          have : (Block.mk f (s + 2 ^ k) (f.width - k2)).address = s + 2 ^ k := rfl
          rw [this, ← hkeq] at hin
          omega
        have hpow : 2 ^ (k + 1) = 2 * 2 ^ k := by
          rw [Nat.pow_succ]
          omega
        have hmax := largestAlignedExp_max f.width s (e - s + 1) (k + 1) (by omega)
          (by rw [hpow]; exact halign) (by omega)
        rw [← hkdef] at hmax
        omega
      · rw [decomposeRangeAux_nil f fuel (s + 2 ^ k) e (by omega)]
        exact List.chain'_singleton _
    · rw [if_neg hse]
      simp

/-- The decomposition of the exact interval of a canonical block is that
single block. -/
theorem decomposeRange_block (t : Block) (hc : Canonical t) :
    decomposeRange t.family t.address (t.address + t.size - 1) = [t] := by
  have hp1 : (1 : Nat) ≤ t.size := t.size_pos
  set s := t.address with hsdef
  set e := t.address + t.size - 1 with hedef
  have hse : s ≤ e := by omega
  have hlen : e - s + 1 = t.size := by omega
  set kt := t.family.width - t.prefixLength with hktdef
  have hsizet : t.size = 2 ^ kt := rfl
  have hkle : largestAlignedExp t.family.width s (e - s + 1) ≤ t.family.width :=
    largestAlignedExp_le _ _ _
  have hspec := largestAlignedExp_spec t.family.width s (e - s + 1) (by omega)
  set k := largestAlignedExp t.family.width s (e - s + 1) with hkdef
  have hkge : kt ≤ k := by
    have halign : s % 2 ^ kt = 0 := by
      have h2 := hc.2
      rw [hsizet] at h2
      exact h2
    have hfit : 2 ^ kt ≤ e - s + 1 := by
      rw [hlen, hsizet]
    have hmax := largestAlignedExp_max t.family.width s (e - s + 1) kt
      (Nat.sub_le _ _) halign hfit
    rw [← hkdef] at hmax
    exact hmax
  have hkle2 : k ≤ kt := by
    have h2 : 2 ^ k ≤ 2 ^ kt := by
      have h3 := hspec.2
      omega
    exact (Nat.pow_le_pow_iff_right (by omega)).mp h2
  have hkeq : k = kt := le_antisymm hkle2 hkge
  have h2k : 2 ^ k = t.size := by
    rw [hkeq]
    exact hsizet.symm
  obtain ⟨n, hn⟩ : ∃ n, e + 1 - s = n + 1 := ⟨e - s, by omega⟩
  unfold decomposeRange
  rw [hn]
  simp only [decomposeRangeAux]
  rw [if_pos hse, ← hkdef]
  rw [decomposeRangeAux_nil t.family n (s + 2 ^ k) e (by omega)]
  have hplen : t.family.width - k = t.prefixLength := by
    rw [hkeq, hktdef, Nat.sub_sub_self hc.1]
  rw [hplen]

/-- Coverage of the decomposition, stated for the fuel-saturated wrapper. -/
theorem decomposeRange_cov (f : Family) (s e a : Nat) :
    covList ((decomposeRange f s e).map Block.toIval) a ↔ (s ≤ a ∧ a ≤ e) :=
  decomposeRangeAux_cov f (e + 1 - s) s e a (le_refl _)

/-- Membership facts for the fuel-saturated wrapper. -/
theorem decomposeRange_mem (f : Family) (s e : Nat) (b : Block)
    (hb : b ∈ decomposeRange f s e) :
    b.family = f ∧ s ≤ b.address ∧ b.address + b.size - 1 ≤ e ∧
      b.prefixLength ≤ f.width ∧ b.address % b.size = 0 :=
  decomposeRangeAux_mem f (e + 1 - s) s e b (le_refl _) hb

/-- Chain facts for the fuel-saturated wrapper. -/
theorem decomposeRange_chain (f : Family) (s e : Nat) :
    List.Chain' (fun b c => c.address = b.address + b.size ∧ ¬ mergeablePair b c)
      (decomposeRange f s e) :=
  decomposeRangeAux_chain f (e + 1 - s) s e (le_refl _)

theorem covList_map_toIval (L : List Block) (a : Nat) :
    covList (L.map Block.toIval) a ↔ ∃ b ∈ L, inIval b.toIval a := by
  unfold covList
  constructor
  · rintro ⟨iv, hiv, hin⟩
    rcases List.mem_map.mp hiv with ⟨b, hb, rfl⟩
    exact ⟨b, hb, hin⟩
  · rintro ⟨b, hb, hin⟩
    exact ⟨b.toIval, List.mem_map_of_mem _ hb, hin⟩

/-- Decomposing every range of a list covers exactly what the ranges cover. -/
theorem covList_flatMap_decompose (f : Family) (M : List (Nat × Nat)) (a : Nat) :
    covList ((M.flatMap (fun m => decomposeRange f m.1 m.2)).map Block.toIval) a ↔
      covList M a := by
  induction M with
  | nil => simp [covList]
  | cons m M ih =>
    rw [List.flatMap_cons, List.map_append, covList_append, ih, covList_cons,
      decomposeRange_cov]
    exact Iff.rfl

/-- The merged sorted ranges of any well-formed interval list are well formed
and gap separated. -/
theorem mergedRanges_gapSorted (l : List (Nat × Nat)) (hw : wfIvals l) :
    wfIvals (mergeIvals (sortIvals l)) ∧ gapChain (mergeIvals (sortIvals l)) :=
  mergeIvals_gapSorted _ (sortIvals_startPairwise l) (sortIvals_wf l hw)

/-- Sorting then merging preserves coverage. -/
theorem covList_mergedRanges (l : List (Nat × Nat)) (a : Nat) :
    covList (mergeIvals (sortIvals l)) a ↔ covList l a := by
  rw [mergeIvals_cov _ (sortIvals_startPairwise l) a, covList_sortIvals]

/-- Every block of a per-family aggregation has that family and is
canonically aligned within the family width. -/
theorem aggregateFamily_mem (f : Family) (l : List Block) (b : Block)
    (hb : b ∈ aggregateFamily f l) :
    b.family = f ∧ b.prefixLength ≤ f.width ∧ b.address % b.size = 0 := by
  rcases List.mem_flatMap.mp hb with ⟨m, hm, hbm⟩
  have h := decomposeRange_mem f m.1 m.2 b hbm
  exact ⟨h.1, h.2.2.2.1, h.2.2.2.2⟩

theorem blocksCover_append (f : Family) (l1 l2 : List Block) (a : Nat) :
    blocksCover f (l1 ++ l2) a ↔ blocksCover f l1 a ∨ blocksCover f l2 a := by
  simp [blocksCover, List.mem_append, or_and_right, exists_or]

/-- Coverage by the aggregation of the matching family. -/
theorem blocksCover_aggFam_self (f : Family) (l : List Block) (a : Nat) :
    blocksCover f (aggregateFamily f l) a ↔
      covList (mergeIvals (sortIvals (familyIvals f l))) a := by
  have h1 : covList ((aggregateFamily f l).map Block.toIval) a ↔
      covList (mergeIvals (sortIvals (familyIvals f l))) a :=
    covList_flatMap_decompose f _ a
  rw [← h1, covList_map_toIval]
  unfold blocksCover
  constructor
  · rintro ⟨b, hb, _, hin⟩
    exact ⟨b, hb, hin⟩
  · rintro ⟨b, hb, hin⟩
    exact ⟨b, hb, (aggregateFamily_mem f l b hb).1, hin⟩

/-- The aggregation of one family covers nothing of the other family. -/
theorem blocksCover_aggFam_ne (f g : Family) (hfg : f ≠ g) (l : List Block) (a : Nat) :
    ¬ blocksCover f (aggregateFamily g l) a := by
  rintro ⟨b, hb, hf, _⟩
  exact hfg (hf.symm.trans (aggregateFamily_mem g l b hb).1)

/-- Coverage by the full aggregation, per family. -/
theorem blocksCover_aggregate (f : Family) (S : List Block) (a : Nat) :
    blocksCover f (aggregate S) a ↔
      covList (mergeIvals (sortIvals (familyIvals f S))) a := by
  unfold aggregate
  rw [blocksCover_append]
  cases f with
  | v4 =>
    rw [blocksCover_aggFam_self]
    exact or_iff_left (blocksCover_aggFam_ne Family.v4 Family.v6 (by decide) S a)
  | v6 =>
    rw [blocksCover_aggFam_self]
    exact or_iff_right (blocksCover_aggFam_ne Family.v6 Family.v4 (by decide) S a)

/-- C1.  Coverage equivalence: within each address family, the aggregated
output covers exactly the addresses covered by the input blocks; no address
is added and none is lost. -/
theorem gather_coverage_equiv (S : List Block) (f : Family) (a : Nat) :
    blocksCover f (gather S) a ↔ blocksCover f S a := by
  unfold gather
  rw [blocksCover_aggregate, covList_mergedRanges, covList_familyIvals]

/-- Pairwise on a flatMap from per-piece pairwise and cross-piece facts. -/
theorem pairwise_flatMap_of {α β : Type} {R : β → β → Prop} {g : α → List β} {l : List α}
    (hin : ∀ x ∈ l, List.Pairwise R (g x))
    (hcross : List.Pairwise (fun x y => ∀ b ∈ g x, ∀ c ∈ g y, R b c) l) :
    List.Pairwise R (l.flatMap g) := by
  induction l with
  | nil => simp
  | cons x xs ih =>
    rw [List.flatMap_cons, List.pairwise_append]
    refine ⟨hin x (List.mem_cons_self x xs),
      ih (fun y hy => hin y (List.mem_cons_of_mem x hy)) (List.pairwise_cons.mp hcross).2, ?_⟩
    intro b hb c hc
    rcases List.mem_flatMap.mp hc with ⟨y, hy, hcy⟩
    exact (List.pairwise_cons.mp hcross).1 y hy b hb c hcy

/-- The decomposition of a range is chained by strict separation with
unmergeable touching pairs. -/
theorem decomposeRange_chain_sepAfter (f : Family) (s e : Nat) :
    List.Chain' sepAfter (decomposeRange f s e) := by
  apply List.Chain'.imp ?_ (decomposeRange_chain f s e)
  intro b c h
  have h1 : 1 ≤ b.size := b.size_pos
  have h2 := h.1
  unfold sepAfter Block.last
  exact ⟨by omega, fun _ => h.2⟩

/-- All blocks of a per-family aggregation are pairwise separated: each one
ends before the next starts, and touching pairs are never mergeable. -/
theorem aggregateFamily_pairwise (f : Family) (l : List Block) :
    List.Pairwise sepAfter (aggregateFamily f l) := by
  have hgs := mergedRanges_gapSorted (familyIvals f l) (familyIvals_wf f l)
  have hpwM := gapSorted_pairwise _ hgs.1 hgs.2
  apply pairwise_flatMap_of
  · intro m _
    exact List.chain'_iff_pairwise.mp (decomposeRange_chain_sepAfter f m.1 m.2)
  · apply hpwM.imp
    intro m1 m2 h12 b hb c hc
    have hbm := (decomposeRange_mem f m1.1 m1.2 b hb).2.2.1
    have hcm := (decomposeRange_mem f m2.1 m2.2 c hc).2.1
    have hbs := b.size_pos
    unfold sepAfter Block.last
    refine ⟨by omega, fun he => absurd he (by omega)⟩

/-- Separation of an ordered pair implies the amended disjointness facts:
non-overlap and unmergeability in both orders. -/
theorem sepAfter_amended (b c : Block) (hsep : sepAfter b c) :
    (b.last < c.address ∨ c.last < b.address) ∧
      ¬ mergeablePair b c ∧ ¬ mergeablePair c b := by
  have hbs : 1 ≤ b.size := b.size_pos
  have hcs : 1 ≤ c.size := c.size_pos
  have hbl : b.address ≤ b.last := b.address_le_last
  have hcl : c.address ≤ c.last := c.address_le_last
  have h1 := hsep.1
  refine ⟨Or.inl (by omega), ?_, ?_⟩
  · intro hm
    have he : c.address = b.address + b.size := hm.2.2.2.2.1
    have hlast : b.last + 1 = c.address := by
      unfold Block.last
      omega
    exact hsep.2 hlast hm
  · intro hm
    have he : b.address = c.address + c.size := hm.2.2.2.2.1
    omega

/-- A mergeable pair really can be merged: the union of the two intervals is
the interval of the single canonical block one prefix bit shorter. -/
theorem mergeablePair_union (b c : Block) (h : mergeablePair b c) :
    Canonical (Block.mk b.family b.address (b.prefixLength - 1)) ∧
      (Block.mk b.family b.address (b.prefixLength - 1)).last = c.last := by
  have hfam := h.1
  have hplen := h.2.1
  have hpos := h.2.2.1
  have hle := h.2.2.2.1
  have haddr := h.2.2.2.2.1
  have halign := h.2.2.2.2.2
  have hsize : (Block.mk b.family b.address (b.prefixLength - 1)).size = 2 * b.size := by
    show 2 ^ (b.family.width - (b.prefixLength - 1)) = 2 * b.size
    have hexp : b.family.width - (b.prefixLength - 1) =
        (b.family.width - b.prefixLength) + 1 := by
      omega
    rw [hexp, Nat.pow_succ]
    show 2 ^ (b.family.width - b.prefixLength) * 2 = 2 * b.size
    unfold Block.size
    omega
  have hcsize : c.size = b.size := by
    show 2 ^ (c.family.width - c.prefixLength) = b.size
    rw [← hfam, ← hplen]
    rfl
  constructor
  · constructor
    · show b.prefixLength - 1 ≤ b.family.width
      omega
    · rw [hsize]
      exact halign
  · show b.address + (Block.mk b.family b.address (b.prefixLength - 1)).size - 1 =
      c.address + c.size - 1
    rw [hsize, hcsize, haddr]
    omega

/-- C3 counterexample.  The claim that distinct output blocks of the same
family are never numerically adjacent fails: the inputs 0.0.0.0/31 and
0.0.0.2/32 aggregate to themselves, and those two output blocks touch
(interval ends at 1, next starts at 2) because their union is not a single
canonical block. -/
theorem gather_disjoint_counterexample :
    ¬ List.Pairwise gapRel (gather [Block.mk Family.v4 0 31, Block.mk Family.v4 2 32]) := by
  decide

/-- C3 (amended).  Distinct same-family blocks in the output never overlap,
and no two of them can be combined into one larger canonical block: they are
never adjacent bit-aligned siblings of equal prefix length.  (They may touch
when their union is not a canonical block.) -/
theorem gather_disjoint_unmergeable (S : List Block) :
    List.Pairwise amendedRel (gather S) := by
  unfold gather aggregate
  rw [List.pairwise_append]
  refine ⟨?_, ?_, ?_⟩
  · apply List.Pairwise.imp_of_mem ?_ (aggregateFamily_pairwise Family.v4 S)
    intro b c hb hc hsep
    intro _
    exact sepAfter_amended b c hsep
  · apply List.Pairwise.imp_of_mem ?_ (aggregateFamily_pairwise Family.v6 S)
    intro b c hb hc hsep
    intro _
    exact sepAfter_amended b c hsep
  · intro b hb c hc
    intro hfam
    have h4 := (aggregateFamily_mem Family.v4 S b hb).1
    have h6 := (aggregateFamily_mem Family.v6 S c hc).1
    exact absurd (h4.symm.trans (hfam.trans h6)) (by decide)

/-- Canonicality of the blocks of one per-family aggregation, stated against
the block's own family. -/
theorem aggregateFamily_mem_canonical (f : Family) (S : List Block) (b : Block)
    (hb : b ∈ aggregateFamily f S) :
    b.prefixLength ≤ b.family.width ∧
      b.address % 2 ^ (b.family.width - b.prefixLength) = 0 := by
  have h1 := aggregateFamily_mem f S b hb
  constructor
  · rw [h1.1]
    exact h1.2.1
  · exact h1.2.2

/-- C6.  Canonical alignment: every output block's base address is a multiple
of 2 ^ (width - prefix length), with width 32 for IPv4 and 128 for IPv6. -/
theorem gather_canonical (S : List Block) (b : Block) (hb : b ∈ gather S) :
    b.prefixLength ≤ b.family.width ∧
      b.address % 2 ^ (b.family.width - b.prefixLength) = 0 := by
  unfold gather aggregate at hb
  rcases List.mem_append.mp hb with h | h
  · exact aggregateFamily_mem_canonical Family.v4 S b h
  · exact aggregateFamily_mem_canonical Family.v6 S b h

/-- Witness for C6 at a concrete input. -/
theorem gather_canonical_witness :
    (Block.mk Family.v4 0 31).prefixLength ≤ (Block.mk Family.v4 0 31).family.width ∧
      (Block.mk Family.v4 0 31).address %
        2 ^ ((Block.mk Family.v4 0 31).family.width - (Block.mk Family.v4 0 31).prefixLength)
        = 0 :=
  gather_canonical [Block.mk Family.v4 0 31, Block.mk Family.v4 2 32]
    (Block.mk Family.v4 0 31) (by decide)

/-- C7.  Output order: all IPv4 blocks precede all IPv6 blocks, and within
each family base addresses are strictly ascending. -/
theorem gather_ordered (S : List Block) : List.Pairwise orderRel (gather S) := by
  unfold gather aggregate
  rw [List.pairwise_append]
  refine ⟨?_, ?_, ?_⟩
  · apply List.Pairwise.imp_of_mem ?_ (aggregateFamily_pairwise Family.v4 S)
    intro b c hb hc hsep
    right
    refine ⟨((aggregateFamily_mem Family.v4 S b hb).1).trans
      ((aggregateFamily_mem Family.v4 S c hc).1).symm, ?_⟩
    have h1 := hsep.1
    have h2 := b.address_le_last
    omega
  · apply List.Pairwise.imp_of_mem ?_ (aggregateFamily_pairwise Family.v6 S)
    intro b c hb hc hsep
    right
    refine ⟨((aggregateFamily_mem Family.v6 S b hb).1).trans
      ((aggregateFamily_mem Family.v6 S c hc).1).symm, ?_⟩
    have h1 := hsep.1
    have h2 := b.address_le_last
    omega
  · intro b hb c hc
    left
    exact ⟨(aggregateFamily_mem Family.v4 S b hb).1, (aggregateFamily_mem Family.v6 S c hc).1⟩

/-- Re-aggregating the output produces the same merged ranges, because the
merged ranges are the unique gap-separated representation of the (preserved)
coverage. -/
theorem mergedRanges_aggregate_eq (f : Family) (S : List Block) :
    mergeIvals (sortIvals (familyIvals f (aggregate S))) =
      mergeIvals (sortIvals (familyIvals f S)) := by
  have hg1 := mergedRanges_gapSorted (familyIvals f (aggregate S))
    (familyIvals_wf f (aggregate S))
  have hg2 := mergedRanges_gapSorted (familyIvals f S) (familyIvals_wf f S)
  apply gapSorted_unique _ _ hg1.1 hg1.2 hg2.1 hg2.2
  intro a
  rw [covList_mergedRanges, covList_mergedRanges, covList_familyIvals, covList_familyIvals,
    blocksCover_aggregate f S a, covList_mergedRanges, covList_familyIvals]

/-- Re-aggregating the output reproduces each per-family aggregation. -/
theorem aggregate_idem_family (f : Family) (S : List Block) :
    aggregateFamily f (aggregate S) = aggregateFamily f S := by
  show (mergeIvals (sortIvals (familyIvals f (aggregate S)))).flatMap
      (fun m => decomposeRange f m.1 m.2) =
    (mergeIvals (sortIvals (familyIvals f S))).flatMap (fun m => decomposeRange f m.1 m.2)
  rw [mergedRanges_aggregate_eq f S]

/-- C5.  Idempotence: aggregating the output of gather reproduces it exactly
(list equality, hence also set equality ignoring order). -/
theorem gather_idempotent (S : List Block) : gather (gather S) = gather S := by
  have h4 := aggregate_idem_family Family.v4 S
  have h6 := aggregate_idem_family Family.v6 S
  calc gather (gather S)
      = aggregateFamily Family.v4 (aggregate S) ++ aggregateFamily Family.v6 (aggregate S) :=
        rfl
    _ = aggregateFamily Family.v4 S ++ aggregateFamily Family.v6 S := by rw [h4, h6]
    _ = gather S := rfl

theorem inIval_toIval (t : Block) (a : Nat) :
    inIval t.toIval a ↔ t.address ≤ a ∧ a ≤ t.last :=
  Iff.rfl

/-- If a pairwise-gap-separated canonical block list covers exactly the same
addresses as a well-formed gap-separated range list, then every range of the
list is exactly the interval of one of those blocks.  This is the heart of
the minimality argument: a contiguous run admits a gap-separated cover only
as a single block. -/
theorem run_is_block (M : List (Nat × Nat)) (Tf : List Block)
    (hw : wfIvals M) (hg : gapChain M)
    (hcov : ∀ a, covList M a ↔ covList (Tf.map Block.toIval) a)
    (hsep : ∀ t1 ∈ Tf, ∀ t2 ∈ Tf, t1 ≠ t2 →
      t1.last + 1 < t2.address ∨ t2.last + 1 < t1.address)
    (m : Nat × Nat) (hm : m ∈ M) : ∃ t ∈ Tf, Block.toIval t = m := by
  have hmwf : m.1 ≤ m.2 := hw m hm
  have hpw : List.Pairwise (fun x y : Nat × Nat => x.2 + 1 < y.1 ∨ y.2 + 1 < x.1) M :=
    (gapSorted_pairwise M hw hg).imp (fun h => Or.inl h)
  have h1 : covList (Tf.map Block.toIval) m.1 := (hcov m.1).mp ⟨m, hm, le_refl _, hmwf⟩
  rcases h1 with ⟨iv, hiv, hin⟩
  rcases List.mem_map.mp hiv with ⟨t, ht, rfl⟩
  rw [inIval_toIval] at hin
  have htoin1 := hin.1
  have htoin2 := hin.2
  have htal := t.address_le_last
  refine ⟨t, ht, ?_⟩
  have hte : t.last ≤ m.2 := by
    by_contra hgt
    push_neg at hgt
    have hpt : covList M (m.2 + 1) := (hcov (m.2 + 1)).mpr
      ⟨t.toIval, List.mem_map_of_mem _ ht, (inIval_toIval t _).mpr ⟨by omega, by omega⟩⟩
    rcases hpt with ⟨m2, hm2, hin2⟩
    have hne : m2 ≠ m := by
      intro h
      rw [h] at hin2
      have := hin2.2
      omega
    have hf := List.Pairwise.forall (fun x y h => h.symm) hpw hm2 hm hne
    have h21 := hin2.1
    have h22 := hin2.2
    rcases hf with h | h <;> omega
  have hts : t.address = m.1 := by
    rcases Nat.lt_or_ge t.address m.1 with hlt | hge
    · exfalso
      have hpt : covList M (m.1 - 1) := (hcov (m.1 - 1)).mpr
        ⟨t.toIval, List.mem_map_of_mem _ ht, (inIval_toIval t _).mpr ⟨by omega, by omega⟩⟩
      rcases hpt with ⟨m2, hm2, hin2⟩
      have hne : m2 ≠ m := by
        intro h
        rw [h] at hin2
        have := hin2.1
        omega
      have hf := List.Pairwise.forall (fun x y h => h.symm) hpw hm2 hm hne
      have h21 := hin2.1
      have h22 := hin2.2
      rcases hf with h | h <;> omega
    · omega
  have htl : t.last = m.2 := by
    rcases Nat.lt_or_ge t.last m.2 with hlt | hge
    · exfalso
      have hpt : covList (Tf.map Block.toIval) (t.last + 1) := (hcov (t.last + 1)).mp
        ⟨m, hm, by omega, by omega⟩
      rcases hpt with ⟨iv2, hiv2, hin2⟩
      rcases List.mem_map.mp hiv2 with ⟨t2, ht2, rfl⟩
      rw [inIval_toIval] at hin2
      have htne : t2 ≠ t := by
        intro h
        rw [h] at hin2
        have := hin2.2
        omega
      have h21 := hin2.1
      have h22 := hin2.2
      rcases hsep t2 ht2 t ht htne with h | h <;> omega
    · omega
  exact Prod.ext hts htl

theorem length_flatMap_one {α β : Type} (l : List α) (g : α → List β)
    (h : ∀ x ∈ l, (g x).length = 1) : (l.flatMap g).length = l.length := by
  induction l with
  | nil => rfl
  | cons x xs ih =>
    rw [List.flatMap_cons, List.length_append, h x (List.mem_cons_self x xs),
      ih (fun y hy => h y (List.mem_cons_of_mem x hy)), List.length_cons]
    omega

/-- Every block is of one of the two families, so the two family filters
partition the list. -/
theorem length_filter_families (T : List Block) :
    (T.filter (fun b => b.family == Family.v4)).length +
      (T.filter (fun b => b.family == Family.v6)).length = T.length := by
  induction T with
  | nil => rfl
  | cons b T ih =>
    rw [List.filter_cons, List.filter_cons]
    cases hb : b.family with
    | v4 =>
      simp
      omega
    | v6 =>
      simp
      omega

/-- Per-family minimality: the per-family aggregation never has more blocks
than the competitor's blocks of that family. -/
theorem aggregateFamily_minimal (f : Family) (S T : List Block)
    (hcanon : ∀ t ∈ T, Canonical t)
    (hsep : T.Pairwise gapRel)
    (hcov : ∀ a, blocksCover f T a ↔ blocksCover f S a) :
    (aggregateFamily f S).length ≤ (T.filter (fun b => b.family == f)).length := by
  have hgs := mergedRanges_gapSorted (familyIvals f S) (familyIvals_wf f S)
  have hcovM : ∀ a, covList (mergeIvals (sortIvals (familyIvals f S))) a ↔
      covList ((T.filter (fun b => b.family == f)).map Block.toIval) a := by
    intro a
    rw [covList_mergedRanges, covList_familyIvals]
    show blocksCover f S a ↔ covList (familyIvals f T) a
    rw [covList_familyIvals]
    exact (hcov a).symm
  have hsepf : ∀ t1 ∈ T.filter (fun b => b.family == f),
      ∀ t2 ∈ T.filter (fun b => b.family == f), t1 ≠ t2 →
      t1.last + 1 < t2.address ∨ t2.last + 1 < t1.address := by
    intro t1 h1 t2 h2 hne
    have hm1 := List.mem_filter.mp h1
    have hm2 := List.mem_filter.mp h2
    have hsym : Symmetric gapRel := by
      intro x y h heq
      exact (h heq.symm).symm
    apply List.Pairwise.forall hsym hsep hm1.1 hm2.1 hne
    have e1 : t1.family = f := by simpa using hm1.2
    have e2 : t2.family = f := by simpa using hm2.2
    rw [e1, e2]
  have hrun := run_is_block (mergeIvals (sortIvals (familyIvals f S)))
    (T.filter (fun b => b.family == f)) hgs.1 hgs.2 hcovM hsepf
  have hone : ∀ m ∈ mergeIvals (sortIvals (familyIvals f S)),
      (decomposeRange f m.1 m.2).length = 1 := by
    intro m hm
    rcases hrun m hm with ⟨t, ht, hteq⟩
    have htmem := List.mem_filter.mp ht
    have htf : t.family = f := by simpa using htmem.2
    have htc : Canonical t := hcanon t htmem.1
    have hm1 : m.1 = t.address := by
      rw [← hteq]
      rfl
    have hm2 : m.2 = t.address + t.size - 1 := by
      rw [← hteq]
      rfl
    rw [hm1, hm2, ← htf, decomposeRange_block t htc]
    rfl
  have hlen : (aggregateFamily f S).length =
      (mergeIvals (sortIvals (familyIvals f S))).length :=
    length_flatMap_one _ _ hone
  have hnodup := gapSorted_nodup _ hgs.1 hgs.2
  have hsub : mergeIvals (sortIvals (familyIvals f S)) ⊆
      (T.filter (fun b => b.family == f)).map Block.toIval := by
    intro m hm
    rcases hrun m hm with ⟨t, ht, hteq⟩
    exact List.mem_map.mpr ⟨t, ht, hteq⟩
  have hle := (hnodup.subperm hsub).length_le
  rw [List.length_map] at hle
  omega

/-- C2.  Minimality: the output block count never exceeds that of any other
(canonical) pairwise-disjoint, pairwise-non-adjacent block set covering
exactly the same addresses in each family. -/
theorem gather_minimal (S T : List Block)
    (hcanon : ∀ t ∈ T, Canonical t)
    (hsep : T.Pairwise gapRel)
    (hcov : ∀ f a, blocksCover f T a ↔ blocksCover f S a) :
    (gather S).length ≤ T.length := by
  have h4 := aggregateFamily_minimal Family.v4 S T hcanon hsep (hcov Family.v4)
  have h6 := aggregateFamily_minimal Family.v6 S T hcanon hsep (hcov Family.v6)
  have hpart := length_filter_families T
  have hsplit : (gather S).length = (aggregateFamily Family.v4 S).length +
      (aggregateFamily Family.v6 S).length := by
    show (aggregateFamily Family.v4 S ++ aggregateFamily Family.v6 S).length = _
    rw [List.length_append]
  omega

/-- Witness for C2 at a concrete input. -/
theorem gather_minimal_witness :
    (∀ t ∈ [Block.mk Family.v4 0 32], Canonical t) ∧
      (gather [Block.mk Family.v4 0 32]).length ≤
        ([Block.mk Family.v4 0 32] : List Block).length :=
  ⟨by decide, gather_minimal [Block.mk Family.v4 0 32] [Block.mk Family.v4 0 32]
    (by decide) (by simp) (fun f a => Iff.rfl)⟩

/-- C4.  Block construction fails exactly on non-canonical input: an error is
returned if and only if the prefix length exceeds the family width or some
bit beyond the prefix length is set; a successful construction carries the
address and prefix length unchanged, never masked or truncated. -/
theorem canonicalize_spec (f : Family) (address prefixLength : Nat) :
    ((f.width < prefixLength ∨ address % 2 ^ (f.width - prefixLength) ≠ 0) ↔
      ∃ e, canonicalize f address prefixLength = Except.error e) ∧
    (∀ b, canonicalize f address prefixLength = Except.ok b →
      b = Block.mk f address prefixLength) := by
  unfold canonicalize
  by_cases h1 : f.width < prefixLength
  · rw [if_pos h1]
    constructor
    · constructor
      · intro _
        exact ⟨_, rfl⟩
      · intro _
        exact Or.inl h1
    · intro b hb
      simp at hb
  · rw [if_neg h1]
    by_cases h2 : address % 2 ^ (f.width - prefixLength) = 0
    · rw [if_pos h2]
      constructor
      · constructor
        · intro h
          rcases h with h | h
          · exact absurd h h1
          · exact absurd h2 h
        · rintro ⟨e, he⟩
          simp at he
      · intro b hb
        injection hb with h
        exact h.symm
    · rw [if_neg h2]
      constructor
      · constructor
        · intro _
          exact ⟨_, rfl⟩
        · intro _
          exact Or.inr h2
      · intro b hb
        simp at hb

/-- Witness for C4: 192.168.1.1/24 (a host bit set beyond the /24 prefix) is
rejected with an error. -/
theorem canonicalize_spec_witness :
    (Family.v4.width < 24 ∨ 3232235777 % 2 ^ (Family.v4.width - 24) ≠ 0) ∧
      ∃ e, canonicalize Family.v4 3232235777 24 = Except.error e :=
  ⟨by decide, (canonicalize_spec Family.v4 3232235777 24).1.mp (by decide)⟩

/-- A parse failure always stems from some line of the (trimmed, nonempty)
input, and the error message names that line. -/
theorem parseLinesGo_error (parse : List Char → Option Block) :
    ∀ (ls : List (List Char)) (msg : String), parseLinesGo parse ls = Except.error msg →
      ∃ l ∈ ls, parse l = none ∧ msg = parseErrMsg l := by
  intro ls
  induction ls with
  | nil =>
    intro msg h
    simp [parseLinesGo] at h
  | cons l ls ih =>
    intro msg h
    simp only [parseLinesGo] at h
    cases hp : parse l with
    | some b =>
      rw [hp] at h
      simp only [] at h
      cases hrec : parseLinesGo parse ls with
      | ok bs =>
        rw [hrec] at h
        simp [Except.map] at h
      | error m2 =>
        rw [hrec] at h
        simp [Except.map] at h
        rcases ih m2 hrec with ⟨l2, hl2, hp2, hm2⟩
        refine ⟨l2, List.mem_cons_of_mem l hl2, hp2, ?_⟩
        rw [← h]
        exact hm2
    | none =>
      rw [hp] at h
      simp only [] at h
      simp at h
      exact ⟨l, List.mem_cons_self l ls, hp, h.symm⟩

/-- C8.  If any trimmed nonempty input line fails parsing, the run exits with
code 101 (the Rust panic) having produced no standard output, and standard
error names the offending line; if every line parses, the run prints every
aggregated block in order and exits 0. -/
theorem lfc_run_spec (parse : List Char → Option Block) (stdin prog : String) :
    (∀ msg, parseNets parse (rustLines stdin) = Except.error msg →
      runMain parse [prog] stdin = RunResult.mk 101 [] [msg] ∧
        ∃ l0 ∈ rustLines stdin, trimChars l0 ≠ [] ∧ parse (trimChars l0) = none ∧
          msg = parseErrMsg (trimChars l0)) ∧
    (∀ nets, parseNets parse (rustLines stdin) = Except.ok nets →
      runMain parse [prog] stdin = RunResult.mk 0 ((gather nets).map OutLine.net) []) := by
  constructor
  · intro msg h
    constructor
    · unfold runMain
      rw [if_neg (by simp), h]
    · have herr := parseLinesGo_error parse
        (((rustLines stdin).map trimChars).filter (fun l => !l.isEmpty)) msg h
      rcases herr with ⟨l, hl, hp, hmsg⟩
      have hl2 := List.mem_filter.mp hl
      rcases List.mem_map.mp hl2.1 with ⟨l0, hl0, rfl⟩
      refine ⟨l0, hl0, ?_, hp, hmsg⟩
      intro hnil
      have := hl2.2
      rw [hnil] at this
      simp at this
  · intro nets h
    unfold runMain
    rw [if_neg (by simp), h]

/-- Witness for C8: a one-line input its parser rejects aborts with exit code
101, empty standard output, and the diagnostic naming the line. -/
theorem lfc_run_spec_witness :
    runMain (fun _ => none) ["lfc"] "x" = RunResult.mk 101 [] [parseErrMsg ['x']] ∧
      ∃ l0 ∈ rustLines "x", trimChars l0 ≠ [] ∧
        (fun _ : List Char => (none : Option Block)) (trimChars l0) = none ∧
        parseErrMsg ['x'] = parseErrMsg (trimChars l0) :=
  (lfc_run_spec (fun _ => none) "x" "lfc").1 (parseErrMsg ['x']) (by rfl)

/-- Filtering out the lines that trim to empty does not change the parse:
such lines contribute nothing. -/
theorem trimFilter_eq (lines : List (List Char)) :
    ((lines.filter (fun l => !(trimChars l).isEmpty)).map trimChars).filter
        (fun l => !l.isEmpty) =
      (lines.map trimChars).filter (fun l => !l.isEmpty) := by
  induction lines with
  | nil => rfl
  | cons l ls ih =>
    by_cases h : (trimChars l).isEmpty
    · rw [List.map_cons, List.filter_cons, List.filter_cons]
      simp [h, ih]
    · rw [List.map_cons, List.filter_cons, List.filter_cons]
      simp [h, ih]

/-- C9.  parse_nets skips every line that trims to empty, without error, and
such lines contribute no block; empty standard input parses to the empty
block list and the program emits no output lines and exits 0. -/
theorem parseNets_skips_blank (parse : List Char → Option Block) (prog : String)
    (lines : List (List Char)) :
    parseNets parse lines =
        parseNets parse (lines.filter (fun l => !(trimChars l).isEmpty)) ∧
      parseNets parse (rustLines "") = Except.ok [] ∧
      runMain parse [prog] "" = RunResult.mk 0 [] [] := by
  have h0 : rustLines "" = [] := by decide
  refine ⟨?_, ?_, ?_⟩
  · show parseLinesGo parse ((lines.map trimChars).filter (fun l => !l.isEmpty)) =
      parseLinesGo parse
        (((lines.filter (fun l => !(trimChars l).isEmpty)).map trimChars).filter
          (fun l => !l.isEmpty))
    rw [trimFilter_eq]
  · rw [h0]
    rfl
  · unfold runMain
    rw [if_neg (by simp), h0]
    rfl

/-- C10.  Argument handling inspects only argv[1]: for "-h" or "--help" the
program prints usage and exits 0 even with extra arguments; for anything else
it prints an error to standard error and exits 1; in both cases the result is
independent of the remaining arguments and of standard input, which is never
read. -/
theorem lfc_args_spec (parse : List Char → Option Block) (prog arg : String)
    (rest : List String) (stdin : String) :
    (arg = "-h" ∨ arg = "--help" →
        runMain parse (prog :: arg :: rest) stdin = RunResult.mk 0 [OutLine.help] []) ∧
      (arg ≠ "-h" → arg ≠ "--help" →
        runMain parse (prog :: arg :: rest) stdin = RunResult.mk 1 [] (usageErr arg)) ∧
      (∀ (rest2 : List String) (stdin2 : String),
        runMain parse (prog :: arg :: rest) stdin =
          runMain parse (prog :: arg :: rest2) stdin2) := by
  have hlen : (prog :: arg :: rest).length > 1 := by simp
  have hget : (prog :: arg :: rest)[1]! = arg := by
    simp [List.getElem!_cons_succ, List.getElem!_cons_zero]
  refine ⟨?_, ?_, ?_⟩
  · intro h
    unfold runMain
    rw [if_pos hlen]
    simp only [hget]
    rw [if_pos h]
  · intro h1 h2
    unfold runMain
    rw [if_pos hlen]
    simp only [hget]
    rw [if_neg (by tauto)]
  · intro rest2 stdin2
    have hlen2 : (prog :: arg :: rest2).length > 1 := by simp
    have hget2 : (prog :: arg :: rest2)[1]! = arg := by
      simp [List.getElem!_cons_succ, List.getElem!_cons_zero]
    unfold runMain
    rw [if_pos hlen, if_pos hlen2]
    simp only [hget, hget2]

/-- Witness for C10: "-h" with an extra argument prints help and exits 0; an
unrecognized argument exits 1 with the error lines. -/
theorem lfc_args_spec_witness :
    runMain (fun _ => none) ["lfc", "-h", "extra"] "ignored" =
        RunResult.mk 0 [OutLine.help] [] ∧
      runMain (fun _ => none) ["lfc", "--bogus"] "ignored" =
        RunResult.mk 1 [] (usageErr "--bogus") :=
  ⟨(lfc_args_spec (fun _ => none) "lfc" "-h" ["extra"] "ignored").1 (Or.inl rfl),
    (lfc_args_spec (fun _ => none) "lfc" "--bogus" [] "ignored").2.1 (by decide) (by decide)⟩

/-- Spec scenario 1: 192.168.0.0/24 and 192.168.1.0/24 merge to
192.168.0.0/23. -/
theorem spec_scenario1 :
    aggregate [Block.mk Family.v4 3232235520 24, Block.mk Family.v4 3232235776 24]
      = [Block.mk Family.v4 3232235520 23] := by
  decide

/-- Spec scenario 2: 10.0.1.0/24 is absorbed by 10.0.0.0/16. -/
theorem spec_scenario2 :
    aggregate [Block.mk Family.v4 167772160 16, Block.mk Family.v4 167772416 24]
      = [Block.mk Family.v4 167772160 16] := by
  decide

/-- Spec scenario 3: a duplicate of 192.168.1.0/24 collapses. -/
theorem spec_scenario3 :
    aggregate [Block.mk Family.v4 3232235776 24, Block.mk Family.v4 3232235776 24]
      = [Block.mk Family.v4 3232235776 24] := by
  decide

/-- Spec scenario 4: four consecutive /24 blocks merge to one /22. -/
theorem spec_scenario4 :
    aggregate [Block.mk Family.v4 167772160 24, Block.mk Family.v4 167772416 24,
        Block.mk Family.v4 167772672 24, Block.mk Family.v4 167772928 24]
      = [Block.mk Family.v4 167772160 22] := by
  decide

/-- Spec scenario 5: three unmergeable blocks pass through, sorted with
10.0.0.0/8 first. -/
theorem spec_scenario5 :
    aggregate [Block.mk Family.v4 3232235776 24, Block.mk Family.v4 3232236288 24,
        Block.mk Family.v4 167772160 8]
      = [Block.mk Family.v4 167772160 8, Block.mk Family.v4 3232235776 24,
        Block.mk Family.v4 3232236288 24] := by
  decide

/-- Spec scenario 6: empty input aggregates to empty output. -/
theorem spec_scenario6 : aggregate [] = [] := by
  decide

/-- Sanity of the line model: terminator semantics of Rust str lines. -/
theorem rustLines_example : rustLines "a\nb\n" = [['a'], ['b']] := by
  decide
